import Mathlib

/-!
Verification of `alexa_neopixel_controller.py` (an animation engine driving a
strip of NeoPixels).  The program is shallowly embedded below: colors are
integer triples, the frame buffer is a `List Color`, Python list indexing
(including negative wrap-around indices) is modelled by `pyGet`/`pySet`,
`math.trunc((a - b)/frames)` on integer channel values is `Int.tdiv`
(truncation toward zero, which is what `math.trunc` of the float quotient
computes for channel-sized operands under MicroPython / Python 3 division
semantics), and the `while` loop of `turn_on` is given explicit fuel.
-/

namespace AlexaNeoPixel

/-- A color is an RGB triple of (arbitrary-precision) integer channels, as in
the Python source where channel arithmetic is unclamped `int` arithmetic. -/
abbrev Color := ℤ × ℤ × ℤ

/-- `BLUE = (0, 5, 40)` (line 14): the background / lit color. -/
def BLUE : Color := (0, 5, 40)

/-- `CYAN = (0, 40, 40)` (line 15): the pointer color. -/
def CYAN : Color := (0, 40, 40)

/-- `BLACK = (0, 0, 0)` (line 16): the off color. -/
def BLACK : Color := (0, 0, 0)

/-- `ALEXA_LOOK_OFFSET_BASE = 2` (line 25). -/
def ALEXA_LOOK_OFFSET_BASE : ℕ := 2

/-- `FPS = 24.0` (line 28). -/
def FPS : ℚ := 24

/-- `SLEEP_TIME = 1/FPS` (line 29). -/
def SLEEP_TIME : ℚ := 1 / FPS

/-- Python list read `l[i]`: a negative index `i` (with `-len l ≤ i`) reads
`l[len l + i]`.  Reads that Python would reject with `IndexError` return the
default `BLACK`; every theorem below only reads indices that are in range. -/
def pyGet (l : List Color) (i : ℤ) : Color :=
  l.getD (if i < 0 then ((l.length : ℤ) + i).toNat else i.toNat) BLACK

/-- Python list write `l[i] = c`, with the same negative-index convention as
`pyGet`.  (`List.set` leaves the list unchanged out of range, where Python
would raise `IndexError`; all writes below are proved in range.) -/
def pySet (l : List Color) (i : ℤ) (c : Color) : List Color :=
  l.set (if i < 0 then ((l.length : ℤ) + i).toNat else i.toNat) c

/- ### Generic helper lemmas about lists -/

theorem getD_set (l : List Color) (j : ℕ) (c : Color) (i : ℕ) :
    (l.set j c).getD i BLACK =
      if j = i ∧ j < l.length then c else l.getD i BLACK := by
  by_cases hi : i < l.length
  · rw [List.getD_eq_getElem _ _ (by simpa using hi)]
    rw [List.getElem_set]
    by_cases hji : j = i
    · subst hji
      rw [if_pos rfl, if_pos ⟨rfl, hi⟩]
    · rw [if_neg hji, if_neg (fun h => hji h.1), List.getD_eq_getElem _ _ hi]
  · have hj : ¬(j = i ∧ j < l.length) := by
      rintro ⟨rfl, hjl⟩; exact hi hjl
    rw [if_neg hj, List.getD_eq_default _ _ (by simpa using not_lt.mp hi),
      List.getD_eq_default _ _ (not_lt.mp hi)]

theorem list_ext_getD (l1 l2 : List Color) (hlen : l1.length = l2.length)
    (h : ∀ i, i < l1.length → l1.getD i BLACK = l2.getD i BLACK) : l1 = l2 := by
  refine List.ext_getElem hlen ?_
  intro i h1 h2
  have := h i h1
  rwa [List.getD_eq_getElem _ _ h1, List.getD_eq_getElem _ _ h2] at this

theorem length_pySet (l : List Color) (i : ℤ) (c : Color) :
    (pySet l i c).length = l.length := by
  simp [pySet]

/-- A fold that writes `g j` at index `j` for every `j < k` leaves the length
unchanged. -/
theorem foldl_set_length (g : ℕ → Color) (b : List Color) (k : ℕ) :
    ((List.range k).foldl (fun acc j => acc.set j (g j)) b).length = b.length := by
  induction k generalizing b with
  | zero => simp
  | succ k ih =>
      rw [List.range_succ, List.foldl_append]
      simp [ih]

/-- Value of the index-writing fold: positions below `k` (and in range) hold
`g`, the rest are untouched. -/
theorem foldl_set_getD (g : ℕ → Color) (b : List Color) (k i : ℕ) :
    ((List.range k).foldl (fun acc j => acc.set j (g j)) b).getD i BLACK =
      if i < k ∧ i < b.length then g i else b.getD i BLACK := by
  induction k with
  | zero => simp
  | succ k ih =>
      rw [List.range_succ, List.foldl_append]
      simp only [List.foldl_cons, List.foldl_nil]
      rw [getD_set, foldl_set_length, ih]
      by_cases hik : i < k
      · have h1 : ¬(k = i ∧ k < b.length) := by
          rintro ⟨rfl, _⟩; exact Nat.lt_irrefl k hik
        by_cases hib : i < b.length
        · rw [if_neg h1, if_pos ⟨hik, hib⟩, if_pos ⟨Nat.lt_succ_of_lt hik, hib⟩]
        · rw [if_neg h1, if_neg (fun h => hib h.2), if_neg (fun h => hib h.2)]
      · by_cases hik2 : i = k
        · subst hik2
          by_cases hib : i < b.length
          · rw [if_pos ⟨rfl, hib⟩, if_pos ⟨Nat.lt_succ_self i, hib⟩]
          · rw [if_neg (fun h => hib h.2), if_neg (fun h => absurd h.1 (Nat.lt_irrefl i)),
              if_neg (fun h => hib h.2)]
        · have h1 : ¬(k = i ∧ k < b.length) := by
            rintro ⟨rfl, _⟩; exact hik2 rfl
          have h2 : ¬(i < k + 1 ∧ i < b.length) := by
            rintro ⟨hlt, _⟩; omega
          rw [if_neg h1, if_neg (fun h => hik h.1), if_neg h2]

/- ### fade_to_color (lines 207-242) -/

/-- `set_neopixel_to_list` (lines 51-60): `for i in range(len(input_list)):
np[i] = input_list[i]`. -/
def set_neopixel_to_list (np input_list : List Color) : List Color :=
  (List.range input_list.length).foldl (fun b i => b.set i (input_list.getD i BLACK)) np

/-- The per-pixel color computed on a non-final frame of `fade_to_color`
(lines 229-234): each channel offset is
`math.trunc((color[c] - starting_color[c])/frames) * (frame + 1)` added to the
starting channel.  `Int.tdiv` is truncation toward zero, exactly
`math.trunc` of the quotient. -/
def fade_pixel (color starting_color : Color) (frames frame : ℕ) : Color :=
  (starting_color.1 + Int.tdiv (color.1 - starting_color.1) frames * (frame + 1),
   starting_color.2.1 + Int.tdiv (color.2.1 - starting_color.2.1) frames * (frame + 1),
   starting_color.2.2 + Int.tdiv (color.2.2 - starting_color.2.2) frames * (frame + 1))

/-- One iteration of the `for frame in range(frames)` loop of `fade_to_color`
(lines 217-236), with `N` the global `NUM_LIGHTS` and `cache` the `np_cache`
snapshot taken at call time (line 215, never refreshed inside the loop).
On the final frame the whole strip is set to `color`; otherwise every pixel is
recomputed from its cached starting color. -/
def fade_frame (N : ℕ) (cache : List Color) (color : Color) (frames : ℕ)
    (b : List Color) (frame : ℕ) : List Color :=
  if frame = frames - 1 then set_neopixel_to_list b (List.replicate N color)
  else (List.range cache.length).foldl
    (fun acc pixel => acc.set pixel (fade_pixel color (cache.getD pixel BLACK) frames frame)) b

/-- The frame buffer after the first `k` frames of `fade_to_color np color
frames` have been computed (frames `0 .. k-1` of the loop at line 217). -/
def fade_after (N : ℕ) (np : List Color) (color : Color) (frames k : ℕ) : List Color :=
  (List.range k).foldl (fade_frame N np color frames) np

/-- `fade_to_color` (lines 207-242): the buffer after all `frames` rendered
frames complete. -/
def fade_to_color (N : ℕ) (np : List Color) (color : Color) (frames : ℕ) : List Color :=
  (List.range frames).foldl (fade_frame N np color frames) np

theorem fade_frame_length (N : ℕ) (cache : List Color) (color : Color)
    (frames : ℕ) (b : List Color) (frame : ℕ) :
    (fade_frame N cache color frames b frame).length = b.length := by
  unfold fade_frame
  split
  · exact foldl_set_length _ b _
  · exact foldl_set_length _ b _

theorem fade_after_length (N : ℕ) (np : List Color) (color : Color) (frames k : ℕ) :
    (fade_after N np color frames k).length = np.length := by
  unfold fade_after
  induction k with
  | zero => simp
  | succ k ih =>
      rw [List.range_succ, List.foldl_append]
      simp only [List.foldl_cons, List.foldl_nil]
      rw [fade_frame_length]
      exact ih

theorem fade_after_succ (N : ℕ) (np : List Color) (color : Color) (frames k : ℕ) :
    fade_after N np color frames (k + 1) =
      fade_frame N np color frames (fade_after N np color frames k) k := by
  unfold fade_after
  rw [List.range_succ, List.foldl_append]
  simp

theorem fade_to_color_eq_after (N : ℕ) (np : List Color) (color : Color) (frames : ℕ) :
    fade_to_color N np color frames = fade_after N np color frames frames := rfl

/-- Shared computation lemma: on a non-final frame `k` (`k < frames - 1`) each
in-range pixel of the buffer holds exactly the `fade_pixel` value computed from
its color at call time. -/
theorem fade_after_getD (N : ℕ) (np : List Color) (color : Color) (frames k i : ℕ)
    (hk : k < frames - 1) (hi : i < np.length) :
    (fade_after N np color frames (k + 1)).getD i BLACK =
      fade_pixel color (np.getD i BLACK) frames k := by
  rw [fade_after_succ]
  unfold fade_frame
  rw [if_neg (by omega)]
  rw [foldl_set_getD]
  rw [if_pos ⟨hi, by rw [fade_after_length]; exact hi⟩]

/-- Writing `[color] * N` over a buffer of length `N` yields the constant
buffer. -/
theorem set_neopixel_to_list_replicate (np : List Color) (c : Color) (N : ℕ)
    (h : np.length = N) :
    set_neopixel_to_list np (List.replicate N c) = List.replicate N c := by
  unfold set_neopixel_to_list
  apply list_ext_getD
  · rw [List.length_replicate, foldl_set_length, h]
  · intro i hi
    rw [foldl_set_length, h] at hi
    have hrep : ∀ j, j < N → (List.replicate N c).getD j BLACK = c := by
      intro j hj
      rw [List.getD_eq_getElem _ _ (by simpa using hj), List.getElem_replicate]
    have := foldl_set_getD (fun j => (List.replicate N c).getD j BLACK) np
      (List.replicate N c).length i
    rw [List.length_replicate] at this
    simp only [List.length_replicate]
    rw [this, if_pos ⟨hi, by omega⟩]

/-- C1 -- After all `F ≥ 1` rendered frames of `fade_to_color` complete, every
index of the frame buffer exactly equals the target color (exact equality on
every channel): the final frame (`frame = frames - 1`, line 219-220)
explicitly sets every index to the target. -/
theorem thm_C1_fade_final (N : ℕ) (np : List Color) (color : Color) (frames : ℕ)
    (hN : np.length = N) (hF : 1 ≤ frames) :
    ∀ i, i < N → (fade_to_color N np color frames).getD i BLACK = color := by
  intro i hi
  obtain ⟨m, rfl⟩ : ∃ m, frames = m + 1 := ⟨frames - 1, by omega⟩
  rw [fade_to_color_eq_after, fade_after_succ]
  unfold fade_frame
  rw [if_pos (by omega)]
  rw [set_neopixel_to_list_replicate _ _ _ (by rw [fade_after_length]; exact hN)]
  rw [List.getD_eq_getElem _ _ (by simpa using hi), List.getElem_replicate]

/-- Witness for C1 at a concrete call: fading a 2-pixel buffer to `CYAN` over
10 frames leaves pixel 0 exactly `CYAN`. -/
theorem wit_C1_fade_final :
    (fade_to_color 2 [BLACK, BLUE] CYAN 10).getD 0 BLACK = CYAN :=
  thm_C1_fade_final 2 [BLACK, BLUE] CYAN 10 (by decide) (by decide) 0 (by decide)

/-- C2 -- On every non-final frame `k < F - 1` the new value of each channel of
each pixel equals `start + trunc((target - start)/F) * (k+1)`, where `start` is
the pixel's channel value at call time, with truncation toward zero
(`Int.tdiv`) applied before the multiplication by `k + 1`. -/
theorem thm_C2_fade_intermediate (N : ℕ) (np : List Color) (color : Color)
    (frames k i : ℕ) (hk : k < frames - 1) (hi : i < np.length) :
    (fade_after N np color frames (k + 1)).getD i BLACK =
      ((np.getD i BLACK).1 +
         Int.tdiv (color.1 - (np.getD i BLACK).1) frames * (k + 1),
       (np.getD i BLACK).2.1 +
         Int.tdiv (color.2.1 - (np.getD i BLACK).2.1) frames * (k + 1),
       (np.getD i BLACK).2.2 +
         Int.tdiv (color.2.2 - (np.getD i BLACK).2.2) frames * (k + 1)) := by
  rw [fade_after_getD N np color frames k i hk hi]
  rfl

/-- Witness for C2: the spec's own scenario, fading `(0,0,0)` to `(0,5,40)`
over 10 frames; after frame 0 the pixel is `(0,0,4)` (green
`trunc(5/10)*1 = 0`, blue `trunc(40/10)*1 = 4`). -/
theorem wit_C2_fade_intermediate :
    (fade_after 1 [BLACK] (0, 5, 40) 10 1).getD 0 BLACK =
      (((0:ℤ), (0:ℤ), (0:ℤ)).1 + Int.tdiv (((0:ℤ), (5:ℤ), (40:ℤ)).1 - ((0:ℤ), (0:ℤ), (0:ℤ)).1) 10 * (0 + 1),
       ((0:ℤ), (0:ℤ), (0:ℤ)).2.1 + Int.tdiv (((0:ℤ), (5:ℤ), (40:ℤ)).2.1 - ((0:ℤ), (0:ℤ), (0:ℤ)).2.1) 10 * (0 + 1),
       ((0:ℤ), (0:ℤ), (0:ℤ)).2.2 + Int.tdiv (((0:ℤ), (5:ℤ), (40:ℤ)).2.2 - ((0:ℤ), (0:ℤ), (0:ℤ)).2.2) 10 * (0 + 1)) := by
  have h := thm_C2_fade_intermediate 1 [BLACK] (0, 5, 40) 10 0 0 (by decide) (by decide)
  simpa [BLACK] using h

/-- Truncating division toward zero, scaled by a factor `0 ≤ m ≤ F`, never
leaves the interval between `0` and `d`. -/
theorem tdiv_mul_between (d : ℤ) (F m : ℤ) (hF : 0 < F) (hm0 : 0 ≤ m) (hmF : m ≤ F) :
    (0 ≤ d → 0 ≤ Int.tdiv d F * m ∧ Int.tdiv d F * m ≤ d) ∧
    (d ≤ 0 → d ≤ Int.tdiv d F * m ∧ Int.tdiv d F * m ≤ 0) := by
  have key : ∀ e : ℤ, 0 ≤ e → 0 ≤ Int.tdiv e F * m ∧ Int.tdiv e F * m ≤ e := by
    intro e he
    rw [Int.tdiv_eq_ediv he (le_of_lt hF)]
    have hq : 0 ≤ e / F := Int.ediv_nonneg he (le_of_lt hF)
    constructor
    · exact mul_nonneg hq hm0
    · calc e / F * m ≤ e / F * F := mul_le_mul_of_nonneg_left hmF hq
        _ ≤ e := Int.ediv_mul_le e (ne_of_gt hF)
  constructor
  · exact key d
  · intro hd
    have := key (-d) (by omega)
    rw [Int.neg_tdiv] at this
    constructor <;> nlinarith [this.1, this.2]

/-- C10 -- On every intermediate (non-final) frame of `fade_to_color` with
`F ≥ 1`, each channel of each pixel stays in the closed interval between its
starting value and the target value (no overshoot), and in particular stays a
valid 8-bit value whenever start and target are. -/
theorem thm_C10_fade_no_overshoot (N : ℕ) (np : List Color) (color : Color)
    (frames k i : ℕ) (hF : 1 ≤ frames) (hk : k < frames - 1) (hi : i < np.length) :
    min (np.getD i BLACK).1 color.1 ≤ ((fade_after N np color frames (k + 1)).getD i BLACK).1 ∧
    ((fade_after N np color frames (k + 1)).getD i BLACK).1 ≤ max (np.getD i BLACK).1 color.1 ∧
    (min (np.getD i BLACK).2.1 color.2.1 ≤ ((fade_after N np color frames (k + 1)).getD i BLACK).2.1) ∧
    ((fade_after N np color frames (k + 1)).getD i BLACK).2.1 ≤ max (np.getD i BLACK).2.1 color.2.1 ∧
    (min (np.getD i BLACK).2.2 color.2.2 ≤ ((fade_after N np color frames (k + 1)).getD i BLACK).2.2) ∧
    ((fade_after N np color frames (k + 1)).getD i BLACK).2.2 ≤ max (np.getD i BLACK).2.2 color.2.2 ∧
    ((0 ≤ (np.getD i BLACK).1 ∧ (np.getD i BLACK).1 ≤ 255 ∧ 0 ≤ color.1 ∧ color.1 ≤ 255) →
      0 ≤ ((fade_after N np color frames (k + 1)).getD i BLACK).1 ∧
        ((fade_after N np color frames (k + 1)).getD i BLACK).1 ≤ 255) ∧
    ((0 ≤ (np.getD i BLACK).2.1 ∧ (np.getD i BLACK).2.1 ≤ 255 ∧ 0 ≤ color.2.1 ∧ color.2.1 ≤ 255) →
      0 ≤ ((fade_after N np color frames (k + 1)).getD i BLACK).2.1 ∧
        ((fade_after N np color frames (k + 1)).getD i BLACK).2.1 ≤ 255) ∧
    ((0 ≤ (np.getD i BLACK).2.2 ∧ (np.getD i BLACK).2.2 ≤ 255 ∧ 0 ≤ color.2.2 ∧ color.2.2 ≤ 255) →
      0 ≤ ((fade_after N np color frames (k + 1)).getD i BLACK).2.2 ∧
        ((fade_after N np color frames (k + 1)).getD i BLACK).2.2 ≤ 255) := by
  rw [fade_after_getD N np color frames k i hk hi]
  have hchan : ∀ s t : ℤ,
      min s t ≤ s + Int.tdiv (t - s) frames * (k + 1) ∧
      s + Int.tdiv (t - s) frames * (k + 1) ≤ max s t := by
    intro s t
    have hF0 : (0:ℤ) < frames := by exact_mod_cast Nat.lt_of_lt_of_le Nat.zero_lt_one hF
    have hm0 : (0:ℤ) ≤ (k:ℤ) + 1 := by positivity
    have hmF : ((k:ℤ) + 1) ≤ frames := by
      have : k + 1 ≤ frames := by omega
      exact_mod_cast this
    have h := tdiv_mul_between (t - s) frames ((k:ℤ) + 1) hF0 hm0 hmF
    rcases le_or_lt s t with hst | hst
    · have := h.1 (by omega)
      constructor <;> [skip; skip] <;> omega
    · have := h.2 (by omega)
      constructor <;> omega
  have h1 := hchan (np.getD i BLACK).1 color.1
  have h2 := hchan (np.getD i BLACK).2.1 color.2.1
  have h3 := hchan (np.getD i BLACK).2.2 color.2.2
  unfold fade_pixel
  dsimp only
  refine ⟨h1.1, h1.2, h2.1, h2.2, h3.1, h3.2, ?_, ?_, ?_⟩
  · rintro ⟨a, b, c, d⟩
    constructor <;> [have := h1.1; have := h1.2] <;> omega
  · rintro ⟨a, b, c, d⟩
    constructor <;> [have := h2.1; have := h2.2] <;> omega
  · rintro ⟨a, b, c, d⟩
    constructor <;> [have := h3.1; have := h3.2] <;> omega

/-- Witness for C10 at a concrete call: fading `[(0,5,40)]` to `(0,40,40)`
over 10 frames, frame 0, pixel 0. -/
theorem wit_C10_fade_no_overshoot :
    min ((List.replicate 1 BLUE).getD 0 BLACK).1 CYAN.1 ≤
      ((fade_after 1 (List.replicate 1 BLUE) CYAN 10 (0 + 1)).getD 0 BLACK).1 :=
  (thm_C10_fade_no_overshoot 1 (List.replicate 1 BLUE) CYAN 10 0 0
    (by decide) (by decide) (by decide)).1

/- ### look_around (lines 145-178) -/

/-- The offset magnitude drawn on line 155:
`(urandom.getrandbits(1) + 1) * ALEXA_LOOK_OFFSET_BASE`, where `bit` is the
uniform 1-bit draw `getrandbits(1)`. -/
def look_offset_magnitude (base : ℕ) (bit : Bool) : ℤ :=
  ((if bit then 1 else 0) + 1) * base

/-- The sign choice of lines 156-158: `if current_center > NUM_LIGHTS/2:
offset *= -1`.  The Python comparison is against the float `NUM_LIGHTS/2`;
for an integer center it is equivalent to `N < 2 * current_center`. -/
def look_offset (N : ℕ) (current_center mag : ℤ) : ℤ :=
  if (N : ℤ) < 2 * current_center then -mag else mag

/-- One repetition of the `for` loop body of `look_around` (lines 154-170):
locate the pointer center (first index holding `CYAN`, plus the half pointer
width `hp`), draw the offset, clamp the new center to
`[hp, N - hp]` (lines 163-164), then rebuild the whole strip: indices in
`range(new_center - 2, new_center + 2)` become `CYAN`, all others `BLUE`
(lines 167-170). -/
def look_around_step (N hp base : ℕ) (np : List Color) (bit : Bool) : List Color :=
  let current_center : ℤ := (List.indexOf CYAN np : ℕ) + hp
  let offset : ℤ := look_offset N current_center (look_offset_magnitude base bit)
  let new_center : ℤ := max (min (current_center + offset) ((N : ℤ) - hp)) (hp : ℤ)
  (List.range N).foldl
    (fun b i => b.set i
      (if new_center - 2 ≤ (i : ℤ) ∧ (i : ℤ) < new_center + 2 then CYAN else BLUE)) np

/-- C5 -- After each repetition of `look_around` on a buffer containing a
pointer-colored cell, the buffer holds exactly one contiguous 4-wide window of
pointer color inside `[0, N)` (all other indices background), and the window
is centered at a point respecting the clamp range `[hp, N - hp]`. -/
theorem thm_C5_look_around_window (N hp base : ℕ) (np : List Color) (bit : Bool)
    (hN : np.length = N) (_hcyan : CYAN ∈ np) (hhp : hp = 2) (hN4 : 4 ≤ N) :
    ∃ c : ℤ, 2 ≤ c ∧ c + 2 ≤ (N : ℤ) ∧ (hp : ℤ) ≤ c ∧ c ≤ (N : ℤ) - hp ∧
      ∀ i : ℕ, i < N →
        (look_around_step N hp base np bit).getD i BLACK =
          (if c - 2 ≤ (i : ℤ) ∧ (i : ℤ) < c + 2 then CYAN else BLUE) := by
  subst hhp
  unfold look_around_step
  set cc : ℤ := (List.indexOf CYAN np : ℕ) + 2 with hcc
  set nc : ℤ := max (min (cc + look_offset N cc (look_offset_magnitude base bit)) ((N : ℤ) - 2)) ((2:ℕ) : ℤ) with hnc
  refine ⟨nc, ?_, ?_, ?_, ?_, ?_⟩
  · simp [hnc]
  · have h1 : min (cc + look_offset N cc (look_offset_magnitude base bit)) ((N : ℤ) - 2) ≤ (N : ℤ) - 2 :=
      min_le_right _ _
    have h2 : ((2:ℕ) : ℤ) ≤ (N : ℤ) - 2 := by
      have : (4 : ℤ) ≤ (N : ℤ) := by exact_mod_cast hN4
      push_cast
      omega
    have := max_le h1 h2
    omega
  · simp [hnc]
  · have h1 : min (cc + look_offset N cc (look_offset_magnitude base bit)) ((N : ℤ) - 2) ≤ (N : ℤ) - 2 :=
      min_le_right _ _
    have h2 : ((2:ℕ) : ℤ) ≤ (N : ℤ) - 2 := by
      have : (4 : ℤ) ≤ (N : ℤ) := by exact_mod_cast hN4
      push_cast
      omega
    have := max_le h1 h2
    push_cast
    push_cast at this
    omega
  · intro i hi
    rw [foldl_set_getD]
    rw [if_pos ⟨hi, by omega⟩]
    rw [hnc, hcc]
    norm_cast

/-- Witness for C5 at the configured defaults `N = 20`, `hp = 2`, on a buffer
with an established pointer segment. -/
theorem wit_C5_look_around_window :
    ∃ c : ℤ, 2 ≤ c ∧ c + 2 ≤ (20 : ℤ) ∧ ((2:ℕ) : ℤ) ≤ c ∧ c ≤ (20 : ℤ) - (2:ℕ) ∧
      ∀ i : ℕ, i < 20 →
        (look_around_step 20 2 2 (CYAN :: List.replicate 19 BLUE) false).getD i BLACK =
          (if c - 2 ≤ (i : ℤ) ∧ (i : ℤ) < c + 2 then CYAN else BLUE) :=
  thm_C5_look_around_window 20 2 2 (CYAN :: List.replicate 19 BLUE) false
    (by decide) (by simp) rfl (by decide)

/-- Counterexample to C6 as stated: with the 1-bit draw equal to 0 the drawn
magnitude is `(0 + 1) * 2 = 2`, which is not in `{2*base, 4*base} = {4, 8}`. -/
theorem cex_C6_offset_magnitude :
    look_offset_magnitude ALEXA_LOOK_OFFSET_BASE false = 2 ∧
      (2 : ℤ) ∉ ({4, 8} : Set ℤ) := by
  constructor
  · decide
  · intro h
    rcases h with h | h <;> simp at h

/-- C6 (amended) -- the magnitude of the look-around offset is drawn from
`{base, 2*base} = {2, 4}` (base = 2) via the uniform 1-bit draw. -/
theorem thm_C6_offset_magnitude_amended (bit : Bool) :
    look_offset_magnitude ALEXA_LOOK_OFFSET_BASE bit ∈ ({2, 4} : Set ℤ) := by
  cases bit
  · left; decide
  · right; simp [look_offset_magnitude, ALEXA_LOOK_OFFSET_BASE]

/-- Counterexample to C7 as stated: at the exact midpoint
(`current_center = 10`, `N = 20`) the strict comparison
`current_center > NUM_LIGHTS/2` is false, so the drawn magnitude keeps its
positive sign: the offset is `4`, not negative. -/
theorem cex_C7_midpoint_sign :
    look_offset 20 10 4 = 4 ∧ ¬ look_offset 20 10 4 < 0 := by
  constructor <;> decide

/-- C7 (amended) -- in the exact-midpoint tie case (`current_center = 10`,
`N = 20`) the sign applied to the drawn offset magnitude is positive: the
magnitude is returned unchanged. -/
theorem thm_C7_midpoint_sign_amended (mag : ℤ) (h : 0 < mag) :
    look_offset 20 10 mag = mag ∧ 0 < look_offset 20 10 mag := by
  unfold look_offset
  rw [if_neg (by decide)]
  exact ⟨rfl, h⟩

/-- Witness for C7 (amended) at magnitude 4. -/
theorem wit_C7_midpoint_sign_amended :
    look_offset 20 10 4 = 4 ∧ (0:ℤ) < look_offset 20 10 4 :=
  thm_C7_midpoint_sign_amended 4 (by decide)

/- ### alternating_pulse_fade (lines 188-198) and the constructor -/

/-- The loop bound of `alternating_pulse_fade` (line 194): `for i in range(3)`. -/
def alternating_pulse_fade_reps : ℕ := 3

/-- The `frames` argument passed to both `fade_to_color` calls inside
`alternating_pulse_fade` (lines 195-196): `frames=SLEEP_TIME*12`.  With
`SLEEP_TIME = 1/24.0` this is the (floating-point, here rational) value
`0.5`, not an integer frame count. -/
def pulse_fade_frames_arg : ℚ := SLEEP_TIME * 12

/-- The hold after the loop (line 198): `time.sleep(SLEEP_TIME*32)`. -/
def pulse_fade_hold : ℚ := SLEEP_TIME * 32

/-- C8 -- the pulse-fade sub-phase does repeat 3 times and holds
`32 * SLEEP_TIME` after the loop, but the `frames` argument given to each
`fade_to_color` call evaluates to `1/2`, which is not a natural number at all
(so `range(frames)` cannot iterate 12 frames; CPython/MicroPython raise
`TypeError` on a float argument) and in particular is not `12`. -/
theorem thm_C8_pulse_fade_frames_arg :
    alternating_pulse_fade_reps = 3 ∧
    pulse_fade_hold = 32 * SLEEP_TIME ∧
    pulse_fade_frames_arg = 1 / 2 ∧
    pulse_fade_frames_arg ≠ 12 ∧
    ¬ ∃ n : ℕ, (n : ℚ) = pulse_fade_frames_arg := by
  refine ⟨rfl, by norm_num [pulse_fade_hold, SLEEP_TIME, FPS], ?_, ?_, ?_⟩
  · norm_num [pulse_fade_frames_arg, SLEEP_TIME, FPS]
  · norm_num [pulse_fade_frames_arg, SLEEP_TIME, FPS]
  · rintro ⟨n, hn⟩
    have h2 : pulse_fade_frames_arg = 1 / 2 := by
      norm_num [pulse_fade_frames_arg, SLEEP_TIME, FPS]
    rw [h2] at hn
    rcases n with _ | n
    · norm_num at hn
    · have : (1 : ℚ) ≤ ((n + 1 : ℕ) : ℚ) := by exact_mod_cast Nat.one_le_iff_ne_zero.mpr (by omega)
      rw [hn] at this
      norm_num at this

/-- `AlexaNeoPixelController.__init__` for the desktop path (lines 67-97):
the buffer is created and every pixel set to `BLACK`.  The source performs no
configuration validation whatsoever and defines no `ConfigurationError`; we
give the embedding an `Except` result type so that the (never-produced) error
case can be stated. -/
def controller_init (N : ℕ) : Except Unit (List Color) :=
  Except.ok (set_neopixel_to_list (List.replicate N BLACK) (List.replicate N BLACK))

/-- Evaluation: the constructor always returns the all-off buffer. -/
theorem controller_init_eq (N : ℕ) :
    controller_init N = Except.ok (List.replicate N BLACK) := by
  unfold controller_init
  rw [set_neopixel_to_list_replicate _ _ _ (List.length_replicate N BLACK)]

/-- Counterexample to C9 as stated: constructing the engine with the invalid
(odd, too-small) strip length `N = 5` succeeds and raises nothing — there is
no `ConfigurationError` at construction time. -/
theorem cex_C9_init_no_validation :
    controller_init 5 = Except.ok (List.replicate 5 BLACK) ∧
      controller_init 5 ≠ Except.error () := by
  refine ⟨controller_init_eq 5, ?_⟩
  rw [controller_init_eq 5]
  intro h
  exact Except.noConfusion h

/-- C9 (amended) -- construction never fails: the source constructor performs
no validation of the strip length or pointer width, so every configuration
(valid or not) is accepted at construction and yields the all-off buffer;
invalid configurations can only surface mid-animation. -/
theorem thm_C9_init_never_fails (N : ℕ) :
    controller_init N = Except.ok (List.replicate N BLACK) :=
  controller_init_eq N

/- ### turn_on (lines 99-143) -/

/-- One iteration of the seeding loop of `turn_on` (lines 108-109):
`np[i] = CYAN; np[-1+(i*-1)] = CYAN`. -/
def seedWrite (b : List Color) (i : ℕ) : List Color :=
  pySet (pySet b (i : ℤ) CYAN) (-1 + (i : ℤ) * -1) CYAN

/-- The seeding loop of `turn_on` (lines 107-109): `for i in
range(ALEXA_HALF_POINTER_WIDTH): np[i] = CYAN; np[-1+(i*-1)] = CYAN`. -/
def turn_on_seed (hp : ℕ) (np : List Color) : List Color :=
  (List.range hp).foldl seedWrite np

/-- The front-half write of one iteration of the inner `for` loop of `turn_on`
(lines 119-122): if the cached pixel at `index` is off and its left neighbor
is pointer-colored, promote `index` to pointer color and demote
`index - ALEXA_HALF_POINTER_WIDTH` to background. -/
def turn_on_front_write (hp : ℕ) (cache np : List Color) (index : ℕ) : List Color :=
  if pyGet cache (index : ℤ) = BLACK ∧ pyGet cache ((index : ℤ) - 1) = CYAN then
    pySet (pySet np (index : ℤ) CYAN) ((index : ℤ) - hp) BLUE
  else np

/-- The back-half write of the same iteration (lines 123-128), at
`back_index = NUM_LIGHTS - index - 1`. -/
def turn_on_back_write (N hp : ℕ) (cache np : List Color) (index : ℕ) : List Color :=
  if pyGet cache ((N : ℤ) - index - 1) = BLACK ∧
      pyGet cache ((N : ℤ) - index - 1 + 1) = CYAN then
    pySet (pySet np ((N : ℤ) - index - 1) CYAN) ((N : ℤ) - index - 1 + hp) BLUE
  else np

/-- One iteration of `for index in range(NUM_LIGHTS/2)` (lines 117-128): the
front write, then the back write.  Both conditions read only the `np_cache`
snapshot. -/
def turn_on_index_step (N hp : ℕ) (cache : List Color) (np : List Color)
    (index : ℕ) : List Color :=
  turn_on_back_write N hp cache (turn_on_front_write hp cache np index) index

/-- One full frame of the `while` loop body (lines 117-128): the inner loop
over the first half of the strip.  (`NUM_LIGHTS/2` is exact since the strip
length is even.) -/
def turn_on_frame (N hp : ℕ) (cache np : List Color) : List Color :=
  (List.range (N / 2)).foldl (turn_on_index_step N hp cache) np

/-- The `while BLACK in np_cache` loop of `turn_on` (lines 112-140), given
explicit fuel: returns the final buffer together with the number of rendered
frames, or `none` if the fuel is exhausted before the loop exits. -/
def turn_on_loop (N hp : ℕ) : ℕ → List Color → Option (List Color × ℕ)
  | 0, np => if BLACK ∈ np then none else some (np, 0)
  | fuel + 1, np =>
      if BLACK ∈ np then
        Option.map (fun p => (p.1, p.2 + 1))
          (turn_on_loop N hp fuel (turn_on_frame N hp np np))
      else some (np, 0)

/-- `turn_on` (lines 99-143) on an all-off strip of length `N`: seed both ends
with half the pointer width, then run the frame loop. -/
def turn_on (N hp fuel : ℕ) : Option (List Color × ℕ) :=
  turn_on_loop N hp fuel (turn_on_seed hp (List.replicate N BLACK))

/-- The buffer contents after `t` frames of the sweep: `t` background pixels,
then `hp` pointer pixels, an off middle, `hp` pointer pixels and `t`
background pixels again (mirrored). -/
def sweepColor (N hp t : ℕ) (i : ℕ) : Color :=
  if i < t then BLUE
  else if i < t + hp then CYAN
  else if i < N - t - hp then BLACK
  else if i < N - t then CYAN
  else BLUE

/-- The whole buffer after `t` frames of the sweep. -/
def sweepState (N hp t : ℕ) : List Color :=
  (List.range N).map (sweepColor N hp t)

theorem sweepState_length (N hp t : ℕ) : (sweepState N hp t).length = N := by
  simp [sweepState]

theorem sweepState_getD (N hp t i : ℕ) (h : i < N) :
    (sweepState N hp t).getD i BLACK = sweepColor N hp t i := by
  unfold sweepState
  rw [List.getD_eq_getElem _ _ (by simpa using h)]
  rw [List.getElem_map, List.getElem_range]

theorem pySet_natCast (l : List Color) (n : ℕ) (c : Color) :
    pySet l (n : ℤ) c = l.set n c := by
  unfold pySet
  rw [if_neg (by omega), Int.toNat_natCast]

theorem pyGet_natCast (l : List Color) (n : ℕ) :
    pyGet l (n : ℤ) = l.getD n BLACK := by
  unfold pyGet
  rw [if_neg (by omega), Int.toNat_natCast]

theorem pyGet_sweepState (N hp t i : ℕ) (h : i < N) :
    pyGet (sweepState N hp t) (i : ℤ) = sweepColor N hp t i := by
  rw [pyGet_natCast]
  exact sweepState_getD N hp t i h

theorem pyGet_sweepState_oob (N hp t : ℕ) :
    pyGet (sweepState N hp t) (N : ℤ) = BLACK := by
  rw [pyGet_natCast]
  exact List.getD_eq_default _ _ (by rw [sweepState_length])

theorem sweepColor_eq_BLACK_iff (N hp t i : ℕ) :
    sweepColor N hp t i = BLACK ↔ t + hp ≤ i ∧ i < N - t - hp := by
  unfold sweepColor
  split_ifs <;>
    first
      | exact iff_of_true rfl (by omega)
      | exact iff_of_false (by decide) (by omega)

theorem sweepColor_eq_CYAN_iff (N hp t i : ℕ) :
    sweepColor N hp t i = CYAN ↔
      (t ≤ i ∧ i < t + hp) ∨ (t + hp ≤ i ∧ N - t - hp ≤ i ∧ i < N - t) := by
  unfold sweepColor
  split_ifs <;>
    first
      | exact iff_of_true rfl (by omega)
      | exact iff_of_false (by decide) (by omega)

theorem sweepColor_cases (N hp t i : ℕ) :
    sweepColor N hp t i = BLUE ∨ sweepColor N hp t i = CYAN ∨
      sweepColor N hp t i = BLACK := by
  unfold sweepColor
  split_ifs <;> simp

theorem BLACK_mem_sweepState_iff (N hp t : ℕ) :
    BLACK ∈ sweepState N hp t ↔ t + hp < N - t - hp := by
  unfold sweepState
  rw [List.mem_map]
  constructor
  · rintro ⟨i, hi, hb⟩
    rw [List.mem_range] at hi
    rw [sweepColor_eq_BLACK_iff] at hb
    omega
  · intro h
    refine ⟨t + hp, List.mem_range.mpr (by omega), ?_⟩
    rw [sweepColor_eq_BLACK_iff]
    omega

/-- At any inner-loop index other than `t + hp`, neither the front nor the
back condition fires on the sweep state after `t` frames. -/
theorem index_step_noop (N hp t : ℕ) (hN : N % 2 = 0) (hhp : 1 ≤ hp)
    (ht : t + hp < N / 2) (i : ℕ) (hi : i < N / 2) (hne : i ≠ t + hp)
    (b : List Color) :
    turn_on_index_step N hp (sweepState N hp t) b i = b := by
  have hiN : i < N := by omega
  have hfront : ¬(pyGet (sweepState N hp t) (i : ℤ) = BLACK ∧
      pyGet (sweepState N hp t) ((i : ℤ) - 1) = CYAN) := by
    rcases Nat.lt_or_ge i (t + hp) with hlt | hge
    · rintro ⟨h1, -⟩
      rw [pyGet_sweepState N hp t i hiN, sweepColor_eq_BLACK_iff] at h1
      omega
    · have hgt : t + hp < i := by omega
      rintro ⟨-, h2⟩
      have e : (i : ℤ) - 1 = ((i - 1 : ℕ) : ℤ) := by omega
      rw [e, pyGet_sweepState N hp t (i - 1) (by omega),
        sweepColor_eq_CYAN_iff] at h2
      omega
  have hback : ¬(pyGet (sweepState N hp t) ((N : ℤ) - i - 1) = BLACK ∧
      pyGet (sweepState N hp t) ((N : ℤ) - i - 1 + 1) = CYAN) := by
    have eb : (N : ℤ) - i - 1 = ((N - 1 - i : ℕ) : ℤ) := by omega
    rcases Nat.lt_or_ge i (t + hp) with hlt | hge
    · rintro ⟨h1, -⟩
      rw [eb, pyGet_sweepState N hp t (N - 1 - i) (by omega),
        sweepColor_eq_BLACK_iff] at h1
      omega
    · have hgt : t + hp < i := by omega
      rintro ⟨-, h2⟩
      have e2 : (N : ℤ) - i - 1 + 1 = ((N - i : ℕ) : ℤ) := by omega
      rw [e2, pyGet_sweepState N hp t (N - i) (by omega),
        sweepColor_eq_CYAN_iff] at h2
      omega
  unfold turn_on_index_step turn_on_back_write turn_on_front_write
  rw [if_neg hfront, if_neg hback]

/-- At inner-loop index `t + hp`, both the front and the back condition fire
on the sweep state after `t` frames, producing the four writes of that
frame. -/
theorem index_step_trigger (N hp t : ℕ) (hN : N % 2 = 0) (hhp : 1 ≤ hp)
    (ht : t + hp < N / 2) (b : List Color) :
    turn_on_index_step N hp (sweepState N hp t) b (t + hp) =
      pySet (pySet (pySet (pySet b ((t + hp : ℕ) : ℤ) CYAN)
          (((t + hp : ℕ) : ℤ) - hp) BLUE)
        ((N : ℤ) - (t + hp : ℕ) - 1) CYAN)
      ((N : ℤ) - (t + hp : ℕ) - 1 + hp) BLUE := by
  have hfront : pyGet (sweepState N hp t) ((t + hp : ℕ) : ℤ) = BLACK ∧
      pyGet (sweepState N hp t) (((t + hp : ℕ) : ℤ) - 1) = CYAN := by
    constructor
    · rw [pyGet_sweepState N hp t (t + hp) (by omega), sweepColor_eq_BLACK_iff]
      omega
    · have e : ((t + hp : ℕ) : ℤ) - 1 = ((t + hp - 1 : ℕ) : ℤ) := by push_cast; omega
      rw [e, pyGet_sweepState N hp t (t + hp - 1) (by omega),
        sweepColor_eq_CYAN_iff]
      omega
  have hback : pyGet (sweepState N hp t) ((N : ℤ) - (t + hp : ℕ) - 1) = BLACK ∧
      pyGet (sweepState N hp t) ((N : ℤ) - (t + hp : ℕ) - 1 + 1) = CYAN := by
    constructor
    · have e : (N : ℤ) - (t + hp : ℕ) - 1 = ((N - t - hp - 1 : ℕ) : ℤ) := by
        push_cast; omega
      rw [e, pyGet_sweepState N hp t (N - t - hp - 1) (by omega),
        sweepColor_eq_BLACK_iff]
      omega
    · have e : (N : ℤ) - (t + hp : ℕ) - 1 + 1 = ((N - t - hp : ℕ) : ℤ) := by
        push_cast; omega
      rw [e, pyGet_sweepState N hp t (N - t - hp) (by omega),
        sweepColor_eq_CYAN_iff]
      omega
  unfold turn_on_index_step turn_on_back_write turn_on_front_write
  rw [if_pos hfront, if_pos hback]

theorem foldl_index_step_noop (N hp : ℕ) (cache : List Color) (l : List ℕ)
    (h : ∀ i ∈ l, ∀ b, turn_on_index_step N hp cache b i = b) :
    ∀ b, l.foldl (turn_on_index_step N hp cache) b = b := by
  induction l with
  | nil => intro b; rfl
  | cons a l ih =>
      intro b
      rw [List.foldl_cons, h a (by simp)]
      exact ih (fun i hi b2 => h i (by simp [hi]) b2) b

/-- The four writes of frame `t + 1` transform the sweep state after `t`
frames into the sweep state after `t + 1` frames. -/
theorem sweep_write_eq (N hp t : ℕ) (hN : N % 2 = 0) (hhp : 1 ≤ hp)
    (ht : t + hp < N / 2) :
    pySet (pySet (pySet (pySet (sweepState N hp t) ((t + hp : ℕ) : ℤ) CYAN)
        (((t + hp : ℕ) : ℤ) - hp) BLUE)
      ((N : ℤ) - (t + hp : ℕ) - 1) CYAN)
    ((N : ℤ) - (t + hp : ℕ) - 1 + hp) BLUE = sweepState N hp (t + 1) := by
  have e1 : (((t + hp : ℕ) : ℤ) - hp) = ((t : ℕ) : ℤ) := by push_cast; omega
  have e2 : ((N : ℤ) - (t + hp : ℕ) - 1) = ((N - t - hp - 1 : ℕ) : ℤ) := by
    push_cast; omega
  have e3 : ((N : ℤ) - (t + hp : ℕ) - 1 + hp) = ((N - t - 1 : ℕ) : ℤ) := by
    push_cast; omega
  rw [e1, e3, e2, pySet_natCast, pySet_natCast, pySet_natCast, pySet_natCast]
  apply list_ext_getD
  · simp [sweepState_length]
  · intro i hi
    simp only [List.length_set, sweepState_length] at hi
    rw [getD_set, getD_set, getD_set, getD_set]
    simp only [List.length_set, sweepState_length]
    rw [sweepState_getD N hp t i hi, sweepState_getD N hp (t + 1) i hi]
    unfold sweepColor
    split_ifs <;> first | rfl | omega

/-- One frame of the `while` loop advances the sweep state by one step. -/
theorem turn_on_frame_step (N hp t : ℕ) (hN : N % 2 = 0) (hhp : 1 ≤ hp)
    (ht : t + hp < N / 2) :
    turn_on_frame N hp (sweepState N hp t) (sweepState N hp t) =
      sweepState N hp (t + 1) := by
  unfold turn_on_frame
  have e : N / 2 = (t + hp + 1) + (N / 2 - (t + hp) - 1) := by omega
  rw [e, List.range_add, List.foldl_append, List.range_succ, List.foldl_append]
  have h1 : (List.range (t + hp)).foldl
      (turn_on_index_step N hp (sweepState N hp t)) (sweepState N hp t) =
      sweepState N hp t := by
    apply foldl_index_step_noop
    intro i hi b
    rw [List.mem_range] at hi
    exact index_step_noop N hp t hN hhp ht i (by omega) (by omega) b
  rw [h1]
  simp only [List.foldl_cons, List.foldl_nil]
  rw [index_step_trigger N hp t hN hhp ht, sweep_write_eq N hp t hN hhp ht]
  apply foldl_index_step_noop
  intro i hi b
  rw [List.mem_map] at hi
  obtain ⟨x, hx, rfl⟩ := hi
  rw [List.mem_range] at hx
  exact index_step_noop N hp t hN hhp ht _ (by omega) (by omega) b

/-- One seed write in closed form: on a buffer of length `N` it sets index `k`
and the mirrored index `N - k - 1` to the pointer color. -/
theorem seedWrite_closed (b : List Color) (k N : ℕ) (hb : b.length = N) :
    seedWrite b k = (b.set k CYAN).set (N - k - 1) CYAN := by
  unfold seedWrite
  rw [pySet_natCast]
  unfold pySet
  rw [if_pos (by omega), List.length_set, hb]
  have e : ((N : ℤ) + (-1 + (k : ℤ) * -1)).toNat = N - k - 1 := by omega
  rw [e]

/-- Characterization of the seeding loop: after folding the first `k` writes,
indices below `k` and the topmost `k` indices are pointer-colored, everything
else is still off. -/
theorem turn_on_seed_aux (N : ℕ) : ∀ k, 2 * k ≤ N →
    ((List.range k).foldl seedWrite (List.replicate N BLACK)).length = N ∧
      ∀ i, i < N →
        ((List.range k).foldl seedWrite (List.replicate N BLACK)).getD i BLACK =
          if i < k ∨ N - k ≤ i then CYAN else BLACK := by
  intro k
  induction k with
  | zero =>
      intro hk
      refine ⟨by simp, ?_⟩
      intro i hi
      rw [if_neg (by omega)]
      simp only [List.range_zero, List.foldl_nil]
      rw [List.getD_eq_getElem _ _ (by simpa using hi), List.getElem_replicate]
  | succ k ih =>
      intro hk
      obtain ⟨ihlen, ihget⟩ := ih (by omega)
      rw [List.range_succ, List.foldl_append]
      simp only [List.foldl_cons, List.foldl_nil]
      rw [seedWrite_closed _ k N ihlen]
      constructor
      · rw [List.length_set, List.length_set]; exact ihlen
      · intro i hi
        rw [getD_set, getD_set, ihget i hi]
        simp only [List.length_set, ihlen]
        split_ifs <;> first | rfl | omega

/-- The seeded all-off strip is the sweep state after zero frames. -/
theorem turn_on_seed_eq (N hp : ℕ) (hsize : 2 * hp ≤ N) :
    turn_on_seed hp (List.replicate N BLACK) = sweepState N hp 0 := by
  obtain ⟨hlen, hget⟩ := turn_on_seed_aux N hp hsize
  unfold turn_on_seed
  apply list_ext_getD
  · rw [hlen, sweepState_length]
  · intro i hi
    rw [hlen] at hi
    rw [hget i hi, sweepState_getD N hp 0 i hi]
    unfold sweepColor
    split_ifs <;> first | rfl | omega

/-- Running the frame loop from the sweep state after `t` frames takes exactly
`N/2 - hp - t` further frames and ends in the fully swept state. -/
theorem turn_on_loop_run (N hp : ℕ) (hN : N % 2 = 0) (hhp : 1 ≤ hp)
    (hsize : 2 * hp ≤ N) :
    ∀ k t fuel, t + k = N / 2 - hp → k ≤ fuel →
      turn_on_loop N hp fuel (sweepState N hp t) =
        some (sweepState N hp (N / 2 - hp), k) := by
  intro k
  induction k with
  | zero =>
      intro t fuel ht hf
      have hT : t = N / 2 - hp := by omega
      subst hT
      have hmem : BLACK ∉ sweepState N hp (N / 2 - hp) := by
        rw [BLACK_mem_sweepState_iff]
        omega
      cases fuel with
      | zero =>
          unfold turn_on_loop
          rw [if_neg hmem]
      | succ f =>
          unfold turn_on_loop
          rw [if_neg hmem]
  | succ k ih =>
      intro t fuel ht hf
      have htlt : t + hp < N / 2 := by omega
      have hmem : BLACK ∈ sweepState N hp t := by
        rw [BLACK_mem_sweepState_iff]
        omega
      obtain ⟨f, rfl⟩ : ∃ f, fuel = f + 1 := ⟨fuel - 1, by omega⟩
      unfold turn_on_loop
      rw [if_pos hmem, turn_on_frame_step N hp t hN hhp htlt,
        ih (t + 1) f (by omega) (by omega)]
      rfl

/-- `turn_on` with fuel `N/2` terminates in exactly `N/2 - hp` rendered frames
and ends in the fully swept state. -/
theorem turn_on_run (N hp : ℕ) (hN : N % 2 = 0) (hhp : 1 ≤ hp)
    (hsize : 2 * hp ≤ N) :
    turn_on N hp (N / 2) = some (sweepState N hp (N / 2 - hp), N / 2 - hp) := by
  unfold turn_on
  rw [turn_on_seed_eq N hp hsize]
  exact turn_on_loop_run N hp hN hhp hsize (N / 2 - hp) 0 (N / 2) (by omega) (by omega)

/-- C3 -- for every even strip length at least twice the pointer width, the
power-on sweep started from an all-off buffer completes, and afterwards every
index holds either the pointer color or the background color and no index
holds the off color. -/
theorem thm_C3_turn_on_colors (N hp : ℕ) (hN : Even N) (hhp : 1 ≤ hp)
    (hw : 2 * (2 * hp) ≤ N) :
    ∃ buf k, turn_on N hp (N / 2) = some (buf, k) ∧
      ∀ i, i < N → (buf.getD i BLACK = CYAN ∨ buf.getD i BLACK = BLUE) ∧
        buf.getD i BLACK ≠ BLACK := by
  have hN2 : N % 2 = 0 := Nat.even_iff.mp hN
  refine ⟨_, _, turn_on_run N hp hN2 hhp (by omega), ?_⟩
  intro i hi
  rw [sweepState_getD N hp (N / 2 - hp) i hi]
  constructor
  · rcases sweepColor_cases N hp (N / 2 - hp) i with h | h | h
    · exact Or.inr h
    · exact Or.inl h
    · rw [sweepColor_eq_BLACK_iff] at h
      omega
  · rw [Ne, sweepColor_eq_BLACK_iff]
    omega

/-- Witness for C3 at the configured defaults `N = 20`, `hp = 2`. -/
theorem wit_C3_turn_on_colors :
    ∃ buf k, turn_on 20 2 (20 / 2) = some (buf, k) ∧
      ∀ i, i < 20 → (buf.getD i BLACK = CYAN ∨ buf.getD i BLACK = BLUE) ∧
        buf.getD i BLACK ≠ BLACK :=
  thm_C3_turn_on_colors 20 2 (by decide) (by decide) (by decide)

/-- C4 -- for every even strip length at least twice the half pointer width,
the power-on sweep's frame loop terminates, and the number of rendered frames
is exactly `N/2 - hp` (in particular bounded by `N/2 - hp` plus a
constant). -/
theorem thm_C4_turn_on_frame_count (N hp : ℕ) (hN : Even N) (hhp : 1 ≤ hp)
    (hsize : 2 * hp ≤ N) :
    ∃ buf cnt, turn_on N hp (N / 2) = some (buf, cnt) ∧ cnt ≤ N / 2 - hp := by
  have hN2 : N % 2 = 0 := Nat.even_iff.mp hN
  exact ⟨_, _, turn_on_run N hp hN2 hhp hsize, le_refl _⟩

/-- Witness for C4 at the configured defaults `N = 20`, `hp = 2`: the sweep
takes at most `8` frames. -/
theorem wit_C4_turn_on_frame_count :
    ∃ buf cnt, turn_on 20 2 (20 / 2) = some (buf, cnt) ∧ cnt ≤ 20 / 2 - 2 :=
  thm_C4_turn_on_frame_count 20 2 (by decide) (by decide) (by decide)

end AlexaNeoPixel
